import Mathlib

/-! gobot: URL classification and scrape dispatch

A shallow embedding of `main.go`.

* A Go `string` is modelled as a `List Char` (one element per rune).  Every
  pattern and marker of the source is ASCII; for such needles the byte-wise
  and the rune-wise readings of `strings.Contains`, of the regular
  expressions and of `url[:len(url)-3]` (executed only when the last three
  runes are ASCII word characters) coincide.
* The three `regexp.MustCompile` patterns are written as values of a small
  regular-expression syntax (`Regex`) and run by a backtracking matcher
  (`Regex.run`) that lists the possible matches in the order a backtracking
  search tries them: Go returns the leftmost match and, among those, the
  first one of that order.
* The collaborators outside the repository (`goquery.NewDocument`,
  `jira.Issue`) are parameters, collected in `World`.
* A goroutine and its channel of capacity one are modelled by the list of
  values the goroutine sends: the handler receives the first of them, and
  waits for ever when there is none.
* Log output is not modelled, and neither is `youtubeScrape`, which is never
  called (its cases in `scrapePage` are commented out).
-/

namespace Gobot

/-! ## Regular expressions (the fragment of RE2 syntax used by the source) -/

/-- Position of the matcher in a text: the rune just before it (`none` at the
beginning of the text), the text from the position on, and the submatches
recorded so far (latest first). -/
structure Cursor where
  prev : Option Char
  rest : List Char
  caps : List (Nat × List Char)

/-- Regular expressions: one rune of a class, greedy repetition of a class,
greedy option, sequence, numbered capturing group, and the empty-width
assertions `^`, `$` and `\b`. -/
inductive Regex where
  | rune (p : Char → Bool)
  | star (p : Char → Bool)
  | opt (r : Regex)
  | seq (a b : Regex)
  | group (n : Nat) (r : Regex)
  | beginText
  | endText
  | wordBoundary

/-- Perl class `\d`. -/
def isDigit (c : Char) : Bool := decide ('0' ≤ c) && decide (c ≤ '9')

/-- Perl class `\w`: `[0-9A-Za-z_]`. -/
def isWord (c : Char) : Bool :=
  isDigit c || (decide ('A' ≤ c) && decide (c ≤ 'Z')) || (decide ('a' ≤ c) && decide (c ≤ 'z'))
    || c == '_'

/-- The class of `.`: any rune but newline. -/
def isDot (c : Char) : Bool := c != '\n'

/-- Whether the rune on one side of a position is an ASCII word character
(`false` at either end of the text). -/
def wordSide : Option Char → Bool
  | none => false
  | some c => isWord c

/-- All the stopping points of a greedy `x*`, the longest first. -/
def starRun (p : Char → Bool) (caps : List (Nat × List Char)) :
    Option Char → List Char → List Cursor
  | prev, [] => [⟨prev, [], caps⟩]
  | prev, c :: t =>
    (if p c then starRun p caps (some c) t else []) ++ [⟨prev, c :: t, caps⟩]

/-- The matches of `r` starting at cursor `c`, in the order a backtracking
search finds them. -/
def Regex.run : Regex → Cursor → List Cursor
  | .rune p, c =>
    match c.rest with
    | [] => []
    | x :: t => if p x then [⟨some x, t, c.caps⟩] else []
  | .star p, c => starRun p c.caps c.prev c.rest
  | .opt r, c => r.run c ++ [c]
  | .seq a b, c => (a.run c).flatMap b.run
  | .group n r, c =>
    (r.run c).map fun e =>
      ⟨e.prev, e.rest, (n, c.rest.take (c.rest.length - e.rest.length)) :: e.caps⟩
  | .beginText, c => if c.prev.isNone then [c] else []
  | .endText, c => if c.rest.isEmpty then [c] else []
  | .wordBoundary, c =>
    if wordSide c.prev != wordSide c.rest.head? then [c] else []

/-- A literal rune. -/
def Regex.chr (x : Char) : Regex := .rune (· == x)

/-- A literal string. -/
def Regex.str : List Char → Regex → Regex
  | [], k => k
  | x :: t, k => .seq (.chr x) (Regex.str t k)

/-- Greedy `x+`, that is `xx*`. -/
def Regex.plus (p : Char → Bool) : Regex := .seq (.rune p) (.star p)

/-- Leftmost-first match at or after a position: the start cursor and the end
cursor of the match. -/
def Regex.search (r : Regex) : Option Char → List Char → Option (Cursor × Cursor)
  | prev, [] => (r.run ⟨prev, [], []⟩).head?.map fun e => (⟨prev, [], []⟩, e)
  | prev, c :: t =>
    match (r.run ⟨prev, c :: t, []⟩).head? with
    | some e => some (⟨prev, c :: t, []⟩, e)
    | none => r.search (some c) t

/-- Model of `(*Regexp).MatchString`. -/
def Regex.MatchString (r : Regex) (s : List Char) : Bool :=
  (r.search none s).isSome

/-- The text of submatch `n` in a match, `""` when the group took no part. -/
def Cursor.submatch (e : Cursor) (n : Nat) : List Char :=
  match e.caps.find? (·.1 == n) with
  | some (_, s) => s
  | none => []

/-- Model of `(*Regexp).FindStringSubmatch(s)[n]` for `n ≥ 1`; `none` when
there is no match (the Go slice is then `nil` and indexing it panics). -/
def Regex.FindStringSubmatch (r : Regex) (s : List Char) (n : Nat) : Option (List Char) :=
  (r.search none s).map fun m => m.2.submatch n

/-! ## The patterns of the source -/

/-- Source: ``.*\.\w\w\wv?$``. -/
def imgur_ext_regex : Regex :=
  .seq (.star isDot) <| .seq (.chr '.') <| .seq (.rune isWord) <| .seq (.rune isWord) <|
    .seq (.rune isWord) <| .seq (.opt (.chr 'v')) .endText

/-- Class `[\dA-Za-z\.-]`. -/
def isHostChar (c : Char) : Bool :=
  isDigit c || (decide ('A' ≤ c) && decide (c ≤ 'Z')) || (decide ('a' ≤ c) && decide (c ≤ 'z'))
    || c == '.' || c == '-'

/-- Class `[/\w\.\+\?\:\;\#\&=-]`. -/
def isPathChar (c : Char) : Bool :=
  c == '/' || isWord c || c == '.' || c == '+' || c == '?' || c == ':' || c == ';'
    || c == '#' || c == '&' || c == '=' || c == '-'

/-- Source: ``\b(https?://?[\dA-Za-z\.-]+[/\w\.\+\?\:\;\#\&=-]*)``. -/
def url_regex : Regex :=
  .seq .wordBoundary <| .group 1 <|
    Regex.str "http".toList <| .seq (.opt (.chr 's')) <| Regex.str ":/".toList <|
    .seq (.opt (.chr '/')) <| .seq (Regex.plus isHostChar) (.star isPathChar)

/-- Class `[a-zA-Z0-9-]`. -/
def isKeyChar (c : Char) : Bool :=
  (decide ('a' ≤ c) && decide (c ≤ 'z')) || (decide ('A' ≤ c) && decide (c ≤ 'Z')) || isDigit c
    || c == '-'

/-- Source: ``^https?://jira2.advance.net/browse/([a-zA-Z0-9-]+)?.*$``
(the dots of the host are unescaped in the source and match any rune but
newline). -/
def jira_regex : Regex :=
  .seq .beginText <| Regex.str "http".toList <| .seq (.opt (.chr 's')) <|
    Regex.str "://jira2".toList <| .seq (.rune isDot) <| Regex.str "advance".toList <|
    .seq (.rune isDot) <| Regex.str "net/browse/".toList <|
    .seq (.opt (.group 1 (Regex.plus isKeyChar))) <| .seq (.star isDot) .endText

/-- Model of the loop of `(*Regexp).allMatches` behind `FindAllString(s, -1)`:
the byte ranges of the successive matches.  `pos` is the offset of the
cursor `(prev, rest)` in the text and `prevMatchEnd` is `none` for Go's `-1`.
Every round moves `pos` forward, so `len(s) + 1` rounds always suffice (this
is also why the bound `i < n` of the Go loop, with `n = len(s) + 1`, never
cuts the loop short). -/
def Regex.allMatches (r : Regex) :
    Nat → Nat → Option Char → List Char → Option Nat → List (Nat × Nat)
  | 0, _, _, _, _ => []
  | fuel + 1, pos, prev, rest, prevMatchEnd =>
    match r.search prev rest with
    | none => []
    | some (b, e) =>
      let m0 := pos + (rest.length - b.rest.length)
      let m1 := pos + (rest.length - e.rest.length)
      if m1 = pos then
        (if some m0 = prevMatchEnd then [] else [(m0, m1)]) ++
          match rest with
          | [] => []
          | c :: t => r.allMatches fuel (pos + 1) (some c) t (some m1)
      else
        (m0, m1) :: r.allMatches fuel m1 e.prev e.rest (some m1)

/-- Model of `(*Regexp).FindAllStringIndex(s, -1)`. -/
def Regex.FindAllStringIndex (r : Regex) (s : List Char) : List (Nat × Nat) :=
  r.allMatches (s.length + 1) 0 none s none

/-- Go slice expression `s[a:b]` (for `a ≤ b ≤ len(s)`). -/
def slice (s : List Char) (a b : Nat) : List Char := (s.drop a).take (b - a)

/-- Model of `(*Regexp).FindAllString(s, -1)`. -/
def Regex.FindAllString (r : Regex) (s : List Char) : List (List Char) :=
  (r.FindAllStringIndex s).map fun m => slice s m.1 m.2

/-! ## Strings -/

/-- Model of `strings.Contains`. -/
def Contains : List Char → List Char → Bool
  | [], substr => substr.isEmpty
  | c :: t, substr => substr.isPrefixOf (c :: t) || Contains t substr

/-- Model of `strings.TrimLeft`. -/
def TrimLeft (s cutset : List Char) : List Char := s.dropWhile cutset.contains

/-- Model of `strings.TrimRight`. -/
def TrimRight (s cutset : List Char) : List Char :=
  (s.reverse.dropWhile cutset.contains).reverse

/-- Model of `strings.Trim`. -/
def Trim (s cutset : List Char) : List Char := TrimRight (TrimLeft s cutset) cutset

/-! ## Collaborators outside the repository -/

/-- A `*goquery.Selection` holding one element, as far as the source queries
it: `s.Text()` and `s.Find(selector).Text()`. -/
structure Selection where
  Text : List Char
  FindText : List Char → List Char

/-- A `*goquery.Document`, as far as the source queries it: the elements
selected by `doc.Find(selector)`, in document order. -/
structure Document where
  Find : List Char → List Selection

/-- The fields of a `gojira.Issue` read by the source. -/
structure IssueFields where
  Summary : List Char

/-- A `gojira.Issue` as far as the source reads it; `Fields` is a pointer. -/
structure Issue where
  Key : List Char
  Fields : Option IssueFields

/-- The outside world: `goquery.NewDocument(url)`, returning the pair
`(*Document, error)` with `none` for `nil`, and `jira.Issue(id)`. -/
structure World where
  NewDocument : List Char → Option Document × Option (List Char)
  Issue : List Char → Issue

/-! ## The extractors and `scrapePage` -/

/-- The extractor functions of the source. -/
inductive Extractor where
  | jiraScrape
  | imgurScrape
  | vimgurScrape
  deriving DecidableEq, Repr

/-- How a run of `scrapePage` or of an extractor ends: it returns after
sending (or trying to send) the listed values on `messageCh`, in order, or it
panics (which, in a goroutine, aborts the program). -/
inductive Result where
  | finished (sends : List (List Char))
  | panicked
  deriving DecidableEq, Repr

/-- What a run of `scrapePage` or of an extractor does: the extractors
entered with their argument, the URLs handed to `goquery.NewDocument`, the
identifiers handed to `jira.Issue`, and how the run ends. -/
structure Trace where
  calls : List (Extractor × List Char)
  fetched : List (List Char)
  lookups : List (List Char)
  result : Result
  deriving DecidableEq, Repr

/-- Source: `jiraScrape`. -/
def jiraScrape (w : World) (url : List Char) : Trace :=
  if jira_regex.MatchString url then
    match jira_regex.FindStringSubmatch url 1 with
    | none => ⟨[(.jiraScrape, url)], [], [], .panicked⟩
    | some matched =>
      let issue := w.Issue matched
      match issue.Fields with
      | none => ⟨[(.jiraScrape, url)], [], [matched], .panicked⟩
      | some fields =>
        ⟨[(.jiraScrape, url)], [], [matched],
          .finished [issue.Key ++ " - ".toList ++ fields.Summary ++ "\n".toList]⟩
  else
    ⟨[(.jiraScrape, url)], [], [], .finished []⟩

/-- Source: `imgurScrape`.  The error returned by the fetch is only logged;
`doc.Find` is then called on the document, which dereferences it. -/
def imgurScrape (w : World) (url : List Char) : Trace :=
  match (w.NewDocument url).1 with
  | none => ⟨[(.imgurScrape, url)], [url], [], .panicked⟩
  | some doc =>
    ⟨[(.imgurScrape, url)], [url], [],
      .finished ((doc.Find "div#content .album-description".toList).map fun s =>
        "Imgur: ".toList ++ Trim (s.FindText "h1".toList) "\n ".toList ++ "\n".toList)⟩

/-- Source: `vimgurScrape`. -/
def vimgurScrape (w : World) (url : List Char) : Trace :=
  match (w.NewDocument url).1 with
  | none => ⟨[(.vimgurScrape, url)], [url], [], .panicked⟩
  | some doc =>
    ⟨[(.vimgurScrape, url)], [url], [],
      .finished ((doc.Find "head title".toList).map fun s =>
        "Imgur: ".toList ++ Trim s.Text "\n ".toList ++ "\n".toList)⟩

/-- Source: `scrapePage`.  The slice `url[:len(url)-3]` panics when the URL
is shorter than three bytes. -/
def scrapePage (w : World) (url : List Char) : Trace :=
  if Contains url "imgur.com/a".toList then imgurScrape w url
  else if Contains url "imgur.com/gallery".toList then vimgurScrape w url
  else if Contains url ".gifv".toList then vimgurScrape w url
  else if imgur_ext_regex.MatchString url then
    if 3 ≤ url.length then vimgurScrape w (url.take (url.length - 3) ++ "gifv".toList)
    else ⟨[], [], [], .panicked⟩
  else if Contains url "jira2.advance.net".toList then jiraScrape w url
  else ⟨[], [], [], .finished []⟩

/-! ## The PRIVMSG handler -/

/-- How the handler of one message ends: it returns, it stays blocked for
ever on `<-messageCh`, or the program is aborted by a panic. -/
inductive Outcome where
  | returned
  | blocked
  | crashed
  deriving DecidableEq, Repr

/-- What the handler of one message does: the `con.Privmsg(channel, text)`
calls in order, the `scrapePage` runs it started, and how it ends. -/
structure HandlerRun where
  privmsgs : List (List Char × List Char)
  scrapes : List Trace
  outcome : Outcome
  deriving DecidableEq, Repr

/-- Source: the `for _, url := range urls` loop of the PRIVMSG handler.  Each
round makes a channel of capacity one, starts `scrapePage` in a goroutine and
receives from the channel: the receive yields the first value sent, and
blocks for ever when `scrapePage` returns without sending. -/
def forUrls (w : World) (channel : List Char) : List (List Char) → HandlerRun
  | [] => ⟨[], [], .returned⟩
  | url :: urls =>
    let t := scrapePage w url
    match t.result with
    | .panicked => ⟨[], [t], .crashed⟩
    | .finished [] => ⟨[], [t], .blocked⟩
    | .finished (text :: _) =>
      let h := forUrls w channel urls
      ⟨(channel, text) :: h.privmsgs, t :: h.scrapes, h.outcome⟩

/-- Source: the callback registered by `PrivMsgCallback`, for an event with
`e.Arguments[0] = channel` and `e.Arguments[1] = message`. -/
def PrivMsgCallback (w : World) (channel message : List Char) : HandlerRun :=
  let urls := url_regex.FindAllString message
  if urls.length > 0 then forUrls w channel urls else ⟨[], [], .returned⟩

/-! ## Concrete worlds used to evaluate the code -/

/-- A world in which every page holds one album description whose heading is
`" album "` and one title `"\n  cats \t\n"`, and every ticket `id` has key
`id` and summary `"sum"`. -/
def demoWorld : World :=
  ⟨fun _ => (some ⟨fun _ => [⟨"\n  cats \t\n".toList, fun _ => " album ".toList⟩]⟩, none),
    fun id => ⟨id, some ⟨"sum".toList⟩⟩⟩

/-- A world in which every page title is `"\n  cats\nand dogs \t\n"` and
every ticket `id` has key `id` and summary `"sum"`. -/
def titleWorld : World :=
  ⟨fun _ => (some ⟨fun _ => [⟨"\n  cats\nand dogs \t\n".toList, fun _ => [] ⟩]⟩, none),
    fun id => ⟨id, some ⟨"sum".toList⟩⟩⟩

/-- A world in which every document fetch fails with an error. -/
def offlineWorld : World :=
  ⟨fun _ => (none, some "dial tcp: no route to host".toList), fun id => ⟨id, none⟩⟩

/-! ## Notions used to state the properties -/

/-- The URL text ends in `.` followed by three word characters. -/
def endsInExt (s : List Char) : Prop :=
  ∃ p a b c, s = p ++ ['.', a, b, c] ∧ isWord a = true ∧ isWord b = true ∧ isWord c = true

/-- The URL text ends in `.`, three word characters and `v`. -/
def endsInExtV (s : List Char) : Prop :=
  ∃ p a b c, s = p ++ ['.', a, b, c, 'v'] ∧ isWord a = true ∧ isWord b = true ∧ isWord c = true

/-- The rune before the position reached after reading `p`, when `prev` was
the rune before `p`. -/
def lastOr (prev : Option Char) (p : List Char) : Option Char :=
  match p.getLast? with
  | some c => some c
  | none => prev

/-- The part of a URL after the scheme separator `://`. -/
def afterScheme : List Char → List Char
  | [] => []
  | c :: t => if "://".toList.isPrefixOf (c :: t) then t.drop 2 else afterScheme t

/-- The path of a URL as the specification words it: the part after scheme
and host, from the first `/` that follows the host. -/
def urlPath (url : List Char) : List Char := (afterScheme url).dropWhile (· != '/')

/-- The text ends in `.` followed by exactly three characters. -/
def endsInDotThree (s : List Char) : Prop := ∃ p a b c, s = p ++ ['.', a, b, c]

/-- The end of `jira_regex`, after the literal `/browse/`:
``([a-zA-Z0-9-]+)?.*$``. -/
def jiraTail : Regex :=
  .seq (.opt (.group 1 (Regex.plus isKeyChar))) <| .seq (.star isDot) .endText

/-- The text sent for a ticket URL: the identifier is submatch 1 of
`jira_regex` in the URL, the lookup of that identifier returns fields, and
the text is the key of the issue, `" - "`, its summary and a newline. -/
def isTicketSummary (w : World) (url text : List Char) : Prop :=
  ∃ key fields, jira_regex.FindStringSubmatch url 1 = some key ∧
    (w.Issue key).Fields = some fields ∧
    text = (w.Issue key).Key ++ " - ".toList ++ fields.Summary ++ "\n".toList

/-- The text `body` is `field` without the newlines and spaces at its two
ends: only newlines and spaces are cut off, and `body` neither starts nor
ends with one. -/
def isTrimmedOf (field body : List Char) : Prop :=
  (∃ l r, field = l ++ body ++ r ∧
    (∀ c ∈ l, c = '\n' ∨ c = ' ') ∧ (∀ c ∈ r, c = '\n' ∨ c = ' ')) ∧
  (∀ c, body.head? = some c → c ≠ '\n' ∧ c ≠ ' ') ∧
  (∀ c, body.getLast? = some c → c ≠ '\n' ∧ c ≠ ' ')

/-- The text sent for a gallery: the document fetched at `target` has a
first element selected by `selector`, and the text is `"Imgur: "`, the field
of that element trimmed of newlines and spaces at its ends, and a newline. -/
def isGallerySummary (w : World) (target selector : List Char)
    (field : Selection → List Char) (text : List Char) : Prop :=
  ∃ doc s rest, (w.NewDocument target).1 = some doc ∧ doc.Find selector = s :: rest ∧
    isTrimmedOf (field s) (Trim (field s) "\n ".toList) ∧
    text = "Imgur: ".toList ++ Trim (field s) "\n ".toList ++ "\n".toList

/-- The text is the summary of the URL, by the kind of the URL: a static
gallery (rule 1) gives the heading of the first album description of the
page at the URL; a dynamic gallery gives the first title of the page at the
URL (rules 2 and 3) or at the URL with its last three characters replaced by
`gifv` (rule 4); a ticket reference (rule 5) gives the ticket line; and the
URL is of one of these kinds. -/
def isSummaryOf (w : World) (url text : List Char) : Prop :=
  (Contains url "imgur.com/a".toList = true →
    isGallerySummary w url "div#content .album-description".toList
      (fun s => s.FindText "h1".toList) text) ∧
  (Contains url "imgur.com/a".toList = false →
    (Contains url "imgur.com/gallery".toList = true ∨ Contains url ".gifv".toList = true) →
    isGallerySummary w url "head title".toList (fun s => s.Text) text) ∧
  (Contains url "imgur.com/a".toList = false →
    Contains url "imgur.com/gallery".toList = false → Contains url ".gifv".toList = false →
    imgur_ext_regex.MatchString url = true →
    isGallerySummary w (url.take (url.length - 3) ++ "gifv".toList) "head title".toList
      (fun s => s.Text) text) ∧
  (Contains url "imgur.com/a".toList = false →
    Contains url "imgur.com/gallery".toList = false → Contains url ".gifv".toList = false →
    imgur_ext_regex.MatchString url = false →
    Contains url "jira2.advance.net".toList = true →
    isTicketSummary w url text) ∧
  (Contains url "imgur.com/a".toList = true ∨ Contains url "imgur.com/gallery".toList = true ∨
    Contains url ".gifv".toList = true ∨ imgur_ext_regex.MatchString url = true ∨
    Contains url "jira2.advance.net".toList = true)

/-! ## Theorems -/

/-! ### The handler loop -/

theorem forUrls_prefix (w : World) (channel : List Char) (urls : List (List Char)) :
    ∃ k, k ≤ urls.length ∧
      List.Forall₂
        (fun url pm => pm.1 = channel ∧
          ∃ more, (scrapePage w url).result = .finished (pm.2 :: more))
        (urls.take k) (forUrls w channel urls).privmsgs := by
  induction urls with
  | nil => exact ⟨0, le_refl _, by simp [forUrls]⟩
  | cons url urls ih =>
    obtain ⟨k, hk, hf⟩ := ih
    cases hr : (scrapePage w url).result with
    | panicked => exact ⟨0, Nat.zero_le _, by simp [forUrls, hr]⟩
    | finished sends =>
      cases sends with
      | nil => exact ⟨0, Nat.zero_le _, by simp [forUrls, hr]⟩
      | cons text more =>
        refine ⟨k + 1, by simpa using hk, ?_⟩
        have hp : (forUrls w channel (url :: urls)).privmsgs
            = (channel, text) :: (forUrls w channel urls).privmsgs := by
          simp [forUrls, hr]
        rw [hp, List.take_succ_cons]
        exact List.Forall₂.cons ⟨rfl, more, hr⟩ hf

theorem PrivMsgCallback_prefix (w : World) (channel message : List Char) :
    ∃ k, k ≤ (url_regex.FindAllString message).length ∧
      List.Forall₂
        (fun url pm => pm.1 = channel ∧
          ∃ more, (scrapePage w url).result = .finished (pm.2 :: more))
        ((url_regex.FindAllString message).take k)
        (PrivMsgCallback w channel message).privmsgs := by
  by_cases hl : (url_regex.FindAllString message).length > 0
  · have hp : PrivMsgCallback w channel message
        = forUrls w channel (url_regex.FindAllString message) := by
      simp only [PrivMsgCallback, if_pos hl]
    rw [hp]
    exact forUrls_prefix w channel _
  · have hp : PrivMsgCallback w channel message = ⟨[], [], .returned⟩ := by
      simp only [PrivMsgCallback, if_neg hl]
    rw [hp]
    exact ⟨0, Nat.zero_le _, by simp⟩

/-! ### The matcher -/

theorem starRun_rest_suffix (p : Char → Bool) (caps : List (Nat × List Char))
    (prev : Option Char) (s : List Char) (e : Cursor) (h : e ∈ starRun p caps prev s) :
    e.rest <:+ s := by
  induction s generalizing prev with
  | nil =>
    simp [starRun] at h
    simp [h]
  | cons c t ih =>
    simp only [starRun, List.mem_append, List.mem_singleton] at h
    rcases h with h | h
    · split at h
      · exact (ih _ h).trans (List.suffix_cons c t)
      · simp at h
    · simp [h]

theorem starRun_self_mem (p : Char → Bool) (caps : List (Nat × List Char))
    (prev : Option Char) (s : List Char) : ⟨prev, s, caps⟩ ∈ starRun p caps prev s := by
  cases s <;> simp [starRun]

theorem run_rest_suffix (r : Regex) (c e : Cursor) (h : e ∈ r.run c) : e.rest <:+ c.rest := by
  induction r generalizing c e with
  | rune p =>
    simp only [Regex.run] at h
    split at h
    · simp at h
    · rename_i x t hx
      split at h
      · simp at h
        simp [h, hx]
      · simp at h
  | star p => exact starRun_rest_suffix p _ _ _ e h
  | opt r ih =>
    simp only [Regex.run, List.mem_append, List.mem_singleton] at h
    rcases h with h | h
    · exact ih c e h
    · simp [h]
  | seq a b iha ihb =>
    simp only [Regex.run, List.mem_flatMap] at h
    obtain ⟨m, hm, he⟩ := h
    exact (ihb m e he).trans (iha c m hm)
  | group n r ih =>
    simp only [Regex.run, List.mem_map] at h
    obtain ⟨m, hm, he⟩ := h
    subst he
    exact ih c m hm
  | beginText =>
    simp only [Regex.run] at h
    split at h <;> simp at h
    simp [h]
  | endText =>
    simp only [Regex.run] at h
    split at h <;> simp at h
    simp [h]
  | wordBoundary =>
    simp only [Regex.run] at h
    split at h <;> simp at h
    simp [h]

theorem lastOr_nil (prev : Option Char) : lastOr prev [] = prev := rfl

theorem lastOr_cons (prev : Option Char) (c : Char) (p : List Char) :
    lastOr prev (c :: p) = lastOr (some c) p := by
  cases p with
  | nil => rfl
  | cons d q =>
    have hl : (d :: q).getLast? = some ((d :: q).getLast (List.cons_ne_nil d q)) :=
      List.getLast?_eq_getLast _ _
    simp only [lastOr, List.getLast?_cons_cons, hl]

/-- What `search` returns: the leftmost position at which the pattern
matches, with the first match of the backtracking order there. -/
theorem search_eq_some (r : Regex) (prev : Option Char) (s : List Char) (b e : Cursor)
    (h : r.search prev s = some (b, e)) :
    ∃ p, s = p ++ b.rest ∧ b.prev = lastOr prev p ∧ b.caps = [] ∧ (r.run b).head? = some e := by
  induction s generalizing prev with
  | nil =>
    simp only [Regex.search, Option.map_eq_some'] at h
    obtain ⟨x, hx, hb⟩ := h
    simp only [Prod.mk.injEq] at hb
    obtain ⟨rfl, rfl⟩ := hb
    exact ⟨[], rfl, rfl, rfl, hx⟩
  | cons c t ih =>
    simp only [Regex.search] at h
    split at h
    · rename_i x hx
      simp only [Option.some.injEq, Prod.mk.injEq] at h
      obtain ⟨rfl, rfl⟩ := h
      exact ⟨[], rfl, rfl, rfl, hx⟩
    · obtain ⟨p, hp, hb, hc, hr⟩ := ih _ h
      exact ⟨c :: p, by simp [hp], by rw [lastOr_cons]; exact hb, hc, hr⟩

theorem search_isSome_of_match (r : Regex) (prev : Option Char) (p t : List Char)
    (h : r.run ⟨lastOr prev p, t, []⟩ ≠ []) : (r.search prev (p ++ t)).isSome = true := by
  induction p generalizing prev with
  | nil =>
    obtain ⟨x, l, hx⟩ := List.exists_cons_of_ne_nil h
    rw [lastOr_nil] at hx
    cases t with
    | nil => simp [Regex.search, hx]
    | cons c t => simp [Regex.search, hx]
  | cons c p ih =>
    rw [lastOr_cons] at h
    simp only [List.cons_append, Regex.search]
    split
    · rfl
    · exact ih _ h

/-! ### `imgur_ext_regex` -/

theorem mem_run_rune (p : Char → Bool) (c e : Cursor) :
    e ∈ (Regex.rune p).run c ↔ ∃ x t, c.rest = x :: t ∧ p x = true ∧ e = ⟨some x, t, c.caps⟩ := by
  simp only [Regex.run]
  split
  · rename_i h
    simp [h]
  · rename_i x t h
    by_cases hp : p x = true
    · simp only [h, hp, if_true, List.mem_singleton, List.cons.injEq]
      constructor
      · intro he
        exact ⟨x, t, ⟨rfl, rfl⟩, hp, he⟩
      · rintro ⟨y, u, ⟨rfl, rfl⟩, -, he⟩
        exact he
    · simp only [h, hp, List.cons.injEq]
      constructor
      · intro he
        simp at he
      · rintro ⟨y, u, ⟨rfl, rfl⟩, hy, -⟩
        exact absurd hy hp

theorem mem_run_seq (a b : Regex) (c e : Cursor) :
    e ∈ (Regex.seq a b).run c ↔ ∃ m, m ∈ a.run c ∧ e ∈ b.run m := by
  simp [Regex.run, List.mem_flatMap]

theorem mem_run_chr (x : Char) (c e : Cursor) :
    e ∈ (Regex.chr x).run c ↔ ∃ t, c.rest = x :: t ∧ e = ⟨some x, t, c.caps⟩ := by
  unfold Regex.chr
  rw [mem_run_rune]
  constructor
  · rintro ⟨y, t, h, hy, he⟩
    simp only [beq_iff_eq] at hy
    subst hy
    exact ⟨t, h, he⟩
  · rintro ⟨t, h, he⟩
    exact ⟨x, t, h, by simp, he⟩

theorem mem_run_opt (r : Regex) (c e : Cursor) :
    e ∈ (Regex.opt r).run c ↔ e ∈ r.run c ∨ e = c := by
  simp [Regex.run]

theorem mem_run_endText (c e : Cursor) :
    e ∈ Regex.endText.run c ↔ c.rest = [] ∧ e = c := by
  simp only [Regex.run]
  split
  · rename_i h
    simp only [List.isEmpty_iff] at h
    simp [h]
  · rename_i h
    simp only [List.isEmpty_iff] at h
    simp [h]

theorem imgur_ext_run_sound (c e : Cursor) (h : e ∈ imgur_ext_regex.run c) :
    ∃ p a b d, (c.rest = p ++ ['.', a, b, d] ∨ c.rest = p ++ ['.', a, b, d, 'v']) ∧
      isWord a = true ∧ isWord b = true ∧ isWord d = true := by
  unfold imgur_ext_regex at h
  simp only [mem_run_seq, mem_run_chr, mem_run_rune, mem_run_opt, mem_run_endText] at h
  obtain ⟨m, hm, m1, ⟨t1, ht1, rfl⟩, m2, ⟨a, t2, ht2, ha, rfl⟩, m3, ⟨b, t3, ht3, hb, rfl⟩,
    m4, ⟨d, t4, ht4, hd, rfl⟩, m5, h5, h6, -⟩ := h
  have hs : m.rest <:+ c.rest := run_rest_suffix _ _ _ hm
  obtain ⟨p, hp⟩ := hs
  simp only at ht2 ht3 ht4
  subst ht2 ht3 ht4
  refine ⟨p, a, b, d, ?_, ha, hb, hd⟩
  rcases h5 with ⟨t5, ht5, rfl⟩ | rfl
  · simp only at ht5 h6
    subst h6
    subst ht5
    right
    rw [← hp, ht1]
  · simp only at h6
    subst h6
    left
    rw [← hp, ht1]

theorem imgur_ext_run_complete (prev : Option Char) (a b d : Char) (tl : List Char)
    (ha : isWord a = true) (hb : isWord b = true) (hd : isWord d = true)
    (htl : tl = [] ∨ tl = ['v']) :
    imgur_ext_regex.run ⟨prev, '.' :: a :: b :: d :: tl, []⟩ ≠ [] := by
  have hm : (⟨prev, '.' :: a :: b :: d :: tl, []⟩ : Cursor) ∈
      (Regex.star isDot).run ⟨prev, '.' :: a :: b :: d :: tl, []⟩ := starRun_self_mem _ _ _ _
  have hmem : ∀ {l : List Cursor} (x : Cursor), x ∈ l → l ≠ [] := fun x hx =>
    List.ne_nil_of_mem hx
  apply hmem ⟨some (if tl = [] then d else 'v'), [], []⟩
  unfold imgur_ext_regex
  rw [mem_run_seq]
  refine ⟨_, hm, ?_⟩
  simp only [mem_run_seq, mem_run_chr, mem_run_rune, mem_run_opt, mem_run_endText]
  refine ⟨_, ⟨_, rfl, rfl⟩, _, ⟨a, _, rfl, ha, rfl⟩, _, ⟨b, _, rfl, hb, rfl⟩,
    _, ⟨d, _, rfl, hd, rfl⟩, ?_⟩
  rcases htl with rfl | rfl
  · exact ⟨_, Or.inr rfl, rfl, rfl⟩
  · exact ⟨_, Or.inl ⟨_, rfl, rfl⟩, rfl, by simp⟩

/-- What `imgur_ext_regex.MatchString` decides: the text ends in `.` and
three word characters, optionally followed by `v`. -/
theorem imgur_ext_match_iff (s : List Char) :
    imgur_ext_regex.MatchString s = true ↔ endsInExt s ∨ endsInExtV s := by
  constructor
  · intro h
    unfold Regex.MatchString at h
    obtain ⟨⟨b, e⟩, hbe⟩ := Option.isSome_iff_exists.mp h
    obtain ⟨p, hp, -, -, hr⟩ := search_eq_some _ _ _ _ _ hbe
    obtain ⟨q, a, x, d, hq, ha, hx, hd⟩ := imgur_ext_run_sound b e (List.mem_of_mem_head? hr)
    rcases hq with hq | hq
    · exact Or.inl ⟨p ++ q, a, x, d, by rw [hp, hq, List.append_assoc], ha, hx, hd⟩
    · exact Or.inr ⟨p ++ q, a, x, d, by rw [hp, hq, List.append_assoc], ha, hx, hd⟩
  · rintro (⟨p, a, b, d, rfl, ha, hb, hd⟩ | ⟨p, a, b, d, rfl, ha, hb, hd⟩)
    · exact search_isSome_of_match _ _ _ _ (imgur_ext_run_complete _ a b d [] ha hb hd (Or.inl rfl))
    · exact search_isSome_of_match _ _ _ _
        (imgur_ext_run_complete _ a b d ['v'] ha hb hd (Or.inr rfl))

/-! ### `scrapePage` -/

theorem vimgurScrape_calls (w : World) (url : List Char) :
    (vimgurScrape w url).calls = [(.vimgurScrape, url)] ∧ (vimgurScrape w url).fetched = [url] ∧
      (vimgurScrape w url).lookups = [] := by
  unfold vimgurScrape
  split <;> exact ⟨rfl, rfl, rfl⟩

theorem jiraScrape_calls (w : World) (url : List Char) :
    (jiraScrape w url).calls = [(.jiraScrape, url)] ∧ (jiraScrape w url).fetched = [] := by
  unfold jiraScrape
  split
  · split
    · exact ⟨rfl, rfl⟩
    · dsimp only
      split <;> exact ⟨rfl, rfl⟩
  · exact ⟨rfl, rfl⟩

theorem take_length_sub_three (p : List Char) (x a b c : Char) :
    (p ++ [x, a, b, c]).take ((p ++ [x, a, b, c]).length - 3) = p ++ [x] := by
  have h : (p ++ [x, a, b, c]) = (p ++ [x]) ++ [a, b, c] := by simp
  rw [h]
  exact List.take_left' (by simp)

/-- C7: a URL `p ++ "." ++ e` with `e` three word characters that contains
none of the three markers is fetched by `vimgurScrape` as `p ++ ".gifv"`, and
the slice that removes the extension is in range. -/
theorem scrapePage_ext_to_gifv (w : World) (p e : List Char)
    (_hp : ∀ c ∈ p, c ≠ '\n') (hlen : e.length = 3) (he : ∀ c ∈ e, isWord c = true)
    (h1 : Contains (p ++ '.' :: e) "imgur.com/a".toList = false)
    (h2 : Contains (p ++ '.' :: e) "imgur.com/gallery".toList = false)
    (h3 : Contains (p ++ '.' :: e) ".gifv".toList = false) :
    3 ≤ (p ++ '.' :: e).length ∧
    scrapePage w (p ++ '.' :: e) = vimgurScrape w (p ++ ".gifv".toList) ∧
    (scrapePage w (p ++ '.' :: e)).calls = [(.vimgurScrape, p ++ ".gifv".toList)] ∧
    (scrapePage w (p ++ '.' :: e)).fetched = [p ++ ".gifv".toList] := by
  obtain ⟨a, b, c, rfl⟩ : ∃ a b c, e = [a, b, c] := by
    match e, hlen with
    | [a, b, c], _ => exact ⟨a, b, c, rfl⟩
  have ha : isWord a = true := he a (by simp)
  have hb : isWord b = true := he b (by simp)
  have hc : isWord c = true := he c (by simp)
  have hm : imgur_ext_regex.MatchString (p ++ ['.', a, b, c]) = true :=
    (imgur_ext_match_iff _).mpr (Or.inl ⟨p, a, b, c, rfl, ha, hb, hc⟩)
  have hl : 3 ≤ (p ++ ['.', a, b, c]).length := by simp
  have hs : scrapePage w (p ++ ['.', a, b, c]) = vimgurScrape w (p ++ ".gifv".toList) := by
    unfold scrapePage
    rw [if_neg (ne_true_of_eq_false h1), if_neg (ne_true_of_eq_false h2),
      if_neg (ne_true_of_eq_false h3), if_pos hm, if_pos hl,
      take_length_sub_three]
    simp
  refine ⟨hl, hs, ?_, ?_⟩
  · rw [hs]; exact (vimgurScrape_calls w _).1
  · rw [hs]; exact (vimgurScrape_calls w _).2.1

theorem scrapePage_ext_to_gifv_witness :
    scrapePage demoWorld "https://host/path/name.jpg".toList
      = vimgurScrape demoWorld "https://host/path/name.gifv".toList :=
  (scrapePage_ext_to_gifv demoWorld "https://host/path/name".toList "jpg".toList
    (by decide) (by decide) (by decide) (by decide) (by decide) (by decide)).2.1

/-- C6 (counterexample): `http://example.com` matches none of rules 1-3 and
has an empty path, yet `scrapePage` takes the extension branch and fetches
the rewritten URL `http://example.gifv`. -/
theorem ext_rule_fires_on_host :
    Contains "http://example.com".toList "imgur.com/a".toList = false ∧
    Contains "http://example.com".toList "imgur.com/gallery".toList = false ∧
    Contains "http://example.com".toList ".gifv".toList = false ∧
    urlPath "http://example.com".toList = [] ∧
    ¬ endsInDotThree (urlPath "http://example.com".toList) ∧
    (scrapePage demoWorld "http://example.com".toList).calls
      = [(.vimgurScrape, "http://example.gifv".toList)] := by
  refine ⟨by decide, by decide, by decide, by decide, ?_, by decide⟩
  rintro ⟨p, a, b, c, h⟩
  have h0 : urlPath "http://example.com".toList = [] := by decide
  rw [h0] at h
  simp at h

/-- C6 (amended): for a URL that matches none of rules 1-3, `scrapePage`
takes the extension branch whenever the whole URL text ends in `.` and three
word characters, and then fetches the URL with its last three characters
replaced by `gifv`; when the text ends neither so nor in `.`, three word
characters and `v`, the URL goes unmodified to the ticket-host rule or is
Unknown. -/
theorem scrapePage_ext_rule (w : World) (url : List Char)
    (h1 : Contains url "imgur.com/a".toList = false)
    (h2 : Contains url "imgur.com/gallery".toList = false)
    (h3 : Contains url ".gifv".toList = false) :
    (endsInExt url →
      3 ≤ url.length ∧
      scrapePage w url = vimgurScrape w (url.take (url.length - 3) ++ "gifv".toList)) ∧
    (¬ endsInExt url → ¬ endsInExtV url →
      scrapePage w url
        = (if Contains url "jira2.advance.net".toList then jiraScrape w url
            else ⟨[], [], [], .finished []⟩) ∧
      (∀ x ∈ (scrapePage w url).calls, x = (.jiraScrape, url)) ∧
      (scrapePage w url).fetched = []) := by
  constructor
  · intro he
    have hm : imgur_ext_regex.MatchString url = true := (imgur_ext_match_iff _).mpr (Or.inl he)
    have hl : 3 ≤ url.length := by
      obtain ⟨p, a, b, c, rfl, -⟩ := he
      simp
    refine ⟨hl, ?_⟩
    unfold scrapePage
    rw [if_neg (ne_true_of_eq_false h1), if_neg (ne_true_of_eq_false h2),
      if_neg (ne_true_of_eq_false h3), if_pos hm, if_pos hl]
  · intro he hv
    have hm : ¬ imgur_ext_regex.MatchString url = true := fun h =>
      ((imgur_ext_match_iff _).mp h).elim he hv
    have hs : scrapePage w url
        = (if Contains url "jira2.advance.net".toList then jiraScrape w url
            else ⟨[], [], [], .finished []⟩) := by
      unfold scrapePage
      rw [if_neg (ne_true_of_eq_false h1), if_neg (ne_true_of_eq_false h2),
      if_neg (ne_true_of_eq_false h3), if_neg hm]
    refine ⟨hs, ?_, ?_⟩
    · rw [hs]
      split
      · intro x hx
        rw [(jiraScrape_calls w url).1] at hx
        simpa using hx
      · intro x hx
        simp at hx
    · rw [hs]
      split
      · exact (jiraScrape_calls w url).2
      · rfl

theorem scrapePage_ext_rule_witness :
    scrapePage demoWorld "http://example.com".toList
      = vimgurScrape demoWorld "http://example.gifv".toList ∧
    scrapePage demoWorld "http://example.org/x".toList = ⟨[], [], [], .finished []⟩ :=
  ⟨((scrapePage_ext_rule demoWorld "http://example.com".toList (by decide) (by decide)
      (by decide)).1 ⟨"http://example".toList, 'c', 'o', 'm', by decide, by decide, by decide,
        by decide⟩).2,
    by decide⟩

/-! ### `jira_regex` -/

theorem starRun_head (p : Char → Bool) (caps : List (Nat × List Char)) (prev : Option Char)
    (xs ys : List Char) (hx : ∀ c ∈ xs, p c = true)
    (hy : ys = [] ∨ ∃ y t, ys = y :: t ∧ p y = false) :
    (starRun p caps prev (xs ++ ys)).head? = some ⟨lastOr prev xs, ys, caps⟩ := by
  induction xs generalizing prev with
  | nil =>
    rcases hy with rfl | ⟨y, t, rfl, hp⟩
    · simp [starRun, lastOr]
    · simp [starRun, lastOr, hp]
  | cons x xs ih =>
    have hpx : p x = true := hx x (by simp)
    have h := ih (some x) (fun c hc => hx c (by simp [hc]))
    show (starRun p caps prev (x :: (xs ++ ys))).head? = _
    rw [starRun, if_pos hpx, List.head?_append, h, lastOr_cons]
    rfl

theorem head?_flatMap_of_head? {α β : Type} (l : List α) (f : α → List β) (a : α) (b : β)
    (hl : l.head? = some a) (hf : (f a).head? = some b) : (l.flatMap f).head? = some b := by
  cases l with
  | nil => simp at hl
  | cons x t =>
    simp only [List.head?_cons, Option.some.injEq] at hl
    subst hl
    simp [List.flatMap_cons, List.head?_append, hf]

theorem isKeyChar_ne_dot (c : Char) (h : isKeyChar c = true) : c ≠ '.' := by
  rintro rfl
  revert h
  decide

theorem isKeyChar_isDot (c : Char) (h : isKeyChar c = true) : isDot c = true := by
  have : c ≠ '\n' := by
    rintro rfl
    revert h
    decide
  simp [isDot, this]

/-- The end of `jira_regex` on an identifier followed by the rest of the URL:
the first match records exactly the identifier as submatch 1. -/
theorem jiraTail_run_head (prev : Option Char) (x : Char) (xs rest : List Char)
    (caps : List (Nat × List Char))
    (hk : ∀ c ∈ x :: xs, isKeyChar c = true)
    (hr : rest = [] ∨ ∃ y t, rest = y :: t ∧ isKeyChar y = false)
    (hn : ∀ c ∈ rest, isDot c = true) :
    (jiraTail.run ⟨prev, x :: xs ++ rest, caps⟩).head?
      = some ⟨lastOr (some x) (xs ++ rest), [], (1, x :: xs) :: caps⟩ := by
  have hx : isKeyChar x = true := hk x (by simp)
  have h1 : (starRun isKeyChar caps (some x) (xs ++ rest)).head?
      = some ⟨lastOr (some x) xs, rest, caps⟩ :=
    starRun_head _ _ _ _ _ (fun c hc => hk c (by simp [hc])) hr
  have h2 : (starRun isDot ((1, x :: xs) :: caps) (lastOr (some x) xs) (rest ++ [])).head?
      = some ⟨lastOr (lastOr (some x) xs) rest, [], (1, x :: xs) :: caps⟩ :=
    starRun_head _ _ _ _ _ hn (Or.inl rfl)
  have h3 : lastOr (lastOr (some x) xs) rest = lastOr (some x) (xs ++ rest) := by
    simp only [lastOr, List.getLast?_append]
    cases rest.getLast? <;> cases xs.getLast? <;> rfl
  rw [List.append_nil, h3] at h2
  have hlen : (x :: xs ++ rest).length - rest.length = (x :: xs).length := by
    simp only [List.cons_append, List.length_cons, List.length_append]
    omega
  unfold jiraTail
  simp only [Regex.run, Regex.plus, List.cons_append, hx, if_true, List.flatMap_cons,
    List.flatMap_nil, List.append_nil]
  apply head?_flatMap_of_head? _ _ ⟨lastOr (some x) xs, rest, (1, x :: xs) :: caps⟩
  · rw [List.head?_append, List.head?_map, h1]
    simp only [Option.map_some', Option.or_some]
    simp only [List.cons_append] at hlen
    rw [hlen]
    simp
  · apply head?_flatMap_of_head? _ _ _ _ h2
    simp

theorem jira_regex_eq :
    jira_regex = .seq .beginText (Regex.str "http".toList (.seq (.opt (.chr 's'))
      (Regex.str "://jira2".toList (.seq (.rune isDot) (Regex.str "advance".toList
        (.seq (.rune isDot) (Regex.str "net/browse/".toList jiraTail))))))) := rfl

theorem jira_run_http (tail : List Char) :
    jira_regex.run ⟨none, "http://jira2.advance.net/browse/".toList ++ tail, []⟩
      = jiraTail.run ⟨some '/', tail, []⟩ := by
  rw [jira_regex_eq]
  simp [Regex.run, Regex.str, Regex.chr, isDot]

theorem jira_run_https (tail : List Char) :
    jira_regex.run ⟨none, "https://jira2.advance.net/browse/".toList ++ tail, []⟩
      = jiraTail.run ⟨some '/', tail, []⟩ := by
  rw [jira_regex_eq]
  simp [Regex.run, Regex.str, Regex.chr, isDot]

theorem search_of_head (r : Regex) (prev : Option Char) (s : List Char) (e : Cursor)
    (h : (r.run ⟨prev, s, []⟩).head? = some e) : r.search prev s = some (⟨prev, s, []⟩, e) := by
  cases s with
  | nil => simp [Regex.search, h]
  | cons c t => simp [Regex.search, h]

/-- On a ticket URL with identifier `x :: xs`, `jira_regex` matches at the
start of the text and its submatch 1 is the identifier. -/
theorem jira_search_ticket (scheme : List Char) (x : Char) (xs rest : List Char)
    (hs : scheme = "http".toList ∨ scheme = "https".toList)
    (hk : ∀ c ∈ x :: xs, isKeyChar c = true)
    (hr : rest = [] ∨ ∃ y t, rest = y :: t ∧ isKeyChar y = false)
    (hn : ∀ c ∈ rest, isDot c = true) :
    jira_regex.search none (scheme ++ "://jira2.advance.net/browse/".toList ++ (x :: xs) ++ rest)
      = some (⟨none, scheme ++ "://jira2.advance.net/browse/".toList ++ (x :: xs) ++ rest, []⟩,
          ⟨lastOr (some x) (xs ++ rest), [], [(1, x :: xs)]⟩) := by
  have hh := jiraTail_run_head (some '/') x xs rest [] hk hr hn
  apply search_of_head
  rcases hs with rfl | rfl
  · have h := jira_run_http (x :: xs ++ rest)
    simp only [String.toList, List.cons_append, List.nil_append, List.append_assoc] at h ⊢
    rw [h]
    exact hh
  · have h := jira_run_https (x :: xs ++ rest)
    simp only [String.toList, List.cons_append, List.nil_append, List.append_assoc] at h ⊢
    rw [h]
    exact hh

/-! ### Routing of ticket URLs -/

theorem contains_false_of_not_mem (x : Char) (needle t : List Char) (hx : x ∈ needle)
    (ht : x ∉ t) : Contains t needle = false := by
  induction t with
  | nil =>
    cases needle with
    | nil => simp at hx
    | cons a l => rfl
  | cons c t ih =>
    have h1 : needle.isPrefixOf (c :: t) = false := by
      cases hp : needle.isPrefixOf (c :: t) with
      | false => rfl
      | true =>
        have hpre : needle <+: c :: t := List.isPrefixOf_iff_prefix.mp hp
        exact absurd (hpre.subset hx) ht
    have h2 : Contains t needle = false := ih (fun h => ht (List.mem_cons_of_mem c h))
    simp only [Contains, h1, h2, Bool.or_false]

theorem ticket_url_markers (scheme tail : List Char)
    (hs : scheme = "http".toList ∨ scheme = "https".toList) (ht : '.' ∉ tail) :
    Contains (scheme ++ "://jira2.advance.net/browse/".toList ++ tail) "imgur.com/a".toList
      = false ∧
    Contains (scheme ++ "://jira2.advance.net/browse/".toList ++ tail) "imgur.com/gallery".toList
      = false ∧
    Contains (scheme ++ "://jira2.advance.net/browse/".toList ++ tail) ".gifv".toList = false ∧
    Contains (scheme ++ "://jira2.advance.net/browse/".toList ++ tail) "jira2.advance.net".toList
      = true := by
  have h1 := contains_false_of_not_mem '.' "imgur.com/a".toList tail (by decide) ht
  have h2 := contains_false_of_not_mem '.' "imgur.com/gallery".toList tail (by decide) ht
  have h3 := contains_false_of_not_mem '.' ".gifv".toList tail (by decide) ht
  simp only [String.toList] at h1 h2 h3
  rcases hs with rfl | rfl <;>
    simp [Contains, List.isPrefixOf, h1, h2, h3]

theorem no_ext_after_slash (A tail : List Char) (ht : '.' ∉ tail) :
    ¬ endsInExt (A ++ '/' :: tail) ∧ ¬ endsInExtV (A ++ '/' :: tail) := by
  have hw : isWord '/' = false := by decide
  have hr : '.' ∉ tail.reverse := by simpa using ht
  constructor
  · rintro ⟨p, a, b, c, h, ha, hb, hc⟩
    have h' := congrArg List.reverse h
    simp only [List.reverse_append, List.reverse_cons, List.reverse_nil, List.nil_append,
      List.append_assoc, List.singleton_append, List.cons_append] at h'
    revert hr h'
    generalize tail.reverse = r
    intro hr h'
    rcases r with _ | ⟨r1, _ | ⟨r2, _ | ⟨r3, _ | ⟨r4, r⟩⟩⟩⟩ <;>
      simp only [List.nil_append, List.cons_append, List.cons.injEq] at h'
    · rw [← h'.1, hw] at hc; simp at hc
    · rw [← h'.2.1, hw] at hb; simp at hb
    · rw [← h'.2.2.1, hw] at ha; simp at ha
    · simp at h'
    · exact hr (by simp [h'.2.2.2.1])
  · rintro ⟨p, a, b, c, h, ha, hb, hc⟩
    have h' := congrArg List.reverse h
    simp only [List.reverse_append, List.reverse_cons, List.reverse_nil, List.nil_append,
      List.append_assoc, List.singleton_append, List.cons_append] at h'
    revert hr h'
    generalize tail.reverse = r
    intro hr h'
    rcases r with _ | ⟨r1, _ | ⟨r2, _ | ⟨r3, _ | ⟨r4, _ | ⟨r5, r⟩⟩⟩⟩⟩ <;>
      simp only [List.nil_append, List.cons_append, List.cons.injEq] at h'
    · simp at h'
    · rw [← h'.2.1, hw] at hc; simp at hc
    · rw [← h'.2.2.1, hw] at hb; simp at hb
    · rw [← h'.2.2.2.1, hw] at ha; simp at ha
    · simp at h'
    · exact hr (by simp [h'.2.2.2.2.1])

theorem jiraScrape_lookups (w : World) (url key : List Char)
    (hm : jira_regex.MatchString url = true)
    (hf : jira_regex.FindStringSubmatch url 1 = some key) :
    (jiraScrape w url).lookups = [key] := by
  unfold jiraScrape
  rw [if_pos hm, hf]
  dsimp only
  split <;> rfl

/-- C8: a URL `scheme://jira2.advance.net/browse/<id><rest>` with a non-empty
identifier over `[a-zA-Z0-9-]` and a rest that is empty or a query string
without `.` and newline is handled by `jiraScrape` alone, which looks up
exactly the identifier. -/
theorem scrapePage_ticket_lookup (w : World) (scheme id rest : List Char)
    (hs : scheme = "http".toList ∨ scheme = "https".toList)
    (hid : id ≠ []) (hk : ∀ c ∈ id, isKeyChar c = true)
    (hrest : rest = [] ∨ (rest.head? = some '?' ∧ '.' ∉ rest ∧ '\n' ∉ rest)) :
    scrapePage w (scheme ++ "://jira2.advance.net/browse/".toList ++ id ++ rest)
      = jiraScrape w (scheme ++ "://jira2.advance.net/browse/".toList ++ id ++ rest) ∧
    jira_regex.FindStringSubmatch
        (scheme ++ "://jira2.advance.net/browse/".toList ++ id ++ rest) 1 = some id ∧
    (scrapePage w (scheme ++ "://jira2.advance.net/browse/".toList ++ id ++ rest)).lookups
      = [id] ∧
    (scrapePage w (scheme ++ "://jira2.advance.net/browse/".toList ++ id ++ rest)).calls
      = [(.jiraScrape, scheme ++ "://jira2.advance.net/browse/".toList ++ id ++ rest)] := by
  obtain ⟨x, xs, rfl⟩ := List.exists_cons_of_ne_nil hid
  have hdot : '.' ∉ rest := by
    rcases hrest with rfl | ⟨-, h, -⟩
    · simp
    · exact h
  have hnl : ∀ c ∈ rest, isDot c = true := by
    rcases hrest with rfl | ⟨-, -, h⟩
    · simp
    · intro c hc
      have : c ≠ '\n' := fun he => h (he ▸ hc)
      simp [isDot, this]
  have hr : rest = [] ∨ ∃ y t, rest = y :: t ∧ isKeyChar y = false := by
    rcases hrest with rfl | ⟨h, -, -⟩
    · exact Or.inl rfl
    · cases rest with
      | nil => simp at h
      | cons y t =>
        simp only [List.head?_cons, Option.some.injEq] at h
        subst h
        exact Or.inr ⟨_, t, rfl, by decide⟩
  have htail : '.' ∉ (x :: xs) ++ rest := by
    intro h
    rcases List.mem_append.mp h with h | h
    · exact isKeyChar_ne_dot _ (hk _ h) rfl
    · exact hdot h
  have hsearch := jira_search_ticket scheme x xs rest hs hk hr hnl
  obtain ⟨h1, h2, h3, h4⟩ := ticket_url_markers scheme ((x :: xs) ++ rest) hs htail
  have hext := no_ext_after_slash (scheme ++ "://jira2.advance.net/browse".toList)
    ((x :: xs) ++ rest) htail
  have hurl : scheme ++ "://jira2.advance.net/browse".toList ++ '/' :: ((x :: xs) ++ rest)
      = scheme ++ "://jira2.advance.net/browse/".toList ++ (x :: xs) ++ rest := by
    simp
  have hurl' : scheme ++ "://jira2.advance.net/browse/".toList ++ ((x :: xs) ++ rest)
      = scheme ++ "://jira2.advance.net/browse/".toList ++ (x :: xs) ++ rest := by
    simp
  rw [hurl] at hext
  rw [hurl'] at h1 h2 h3 h4
  have hm : jira_regex.MatchString
      (scheme ++ "://jira2.advance.net/browse/".toList ++ (x :: xs) ++ rest) = true := by
    unfold Regex.MatchString
    rw [hsearch]
    rfl
  have hf : jira_regex.FindStringSubmatch
      (scheme ++ "://jira2.advance.net/browse/".toList ++ (x :: xs) ++ rest) 1
        = some (x :: xs) := by
    unfold Regex.FindStringSubmatch
    rw [hsearch]
    rfl
  have hnm : ¬ imgur_ext_regex.MatchString
      (scheme ++ "://jira2.advance.net/browse/".toList ++ (x :: xs) ++ rest) = true := fun h =>
    ((imgur_ext_match_iff _).mp h).elim hext.1 hext.2
  have hsp : scrapePage w (scheme ++ "://jira2.advance.net/browse/".toList ++ (x :: xs) ++ rest)
      = jiraScrape w (scheme ++ "://jira2.advance.net/browse/".toList ++ (x :: xs) ++ rest) := by
    unfold scrapePage
    rw [if_neg (ne_true_of_eq_false h1), if_neg (ne_true_of_eq_false h2),
      if_neg (ne_true_of_eq_false h3), if_neg hnm, if_pos h4]
  refine ⟨hsp, hf, ?_, ?_⟩
  · rw [hsp]
    exact jiraScrape_lookups w _ _ hm hf
  · rw [hsp]
    exact (jiraScrape_calls w _).1

theorem scrapePage_ticket_lookup_witness :
    jira_regex.FindStringSubmatch "https://jira2.advance.net/browse/ABC-123?x=1".toList 1
      = some "ABC-123".toList ∧
    (scrapePage demoWorld "https://jira2.advance.net/browse/ABC-123?x=1".toList).lookups
      = ["ABC-123".toList] :=
  ⟨(scrapePage_ticket_lookup demoWorld "https".toList "ABC-123".toList "?x=1".toList
      (Or.inr rfl) (by decide) (by decide) (Or.inr (by decide))).2.1,
    (scrapePage_ticket_lookup demoWorld "https".toList "ABC-123".toList "?x=1".toList
      (Or.inr rfl) (by decide) (by decide) (Or.inr (by decide))).2.2.1⟩

/-! ### `url_regex` and `FindAllString` -/

theorem mem_run_group (n : Nat) (r : Regex) (c e : Cursor) (h : e ∈ (Regex.group n r).run c) :
    ∃ m, m ∈ r.run c ∧ e.rest = m.rest := by
  simp only [Regex.run, List.mem_map] at h
  obtain ⟨m, hm, rfl⟩ := h
  exact ⟨m, hm, rfl⟩

theorem mem_run_wordBoundary (c e : Cursor) (h : e ∈ Regex.wordBoundary.run c) : e = c := by
  simp only [Regex.run] at h
  split at h
  · simpa using h
  · simp at h

/-- Every match of `url_regex` starts with `http:/` or `https:/` and ends
after it. -/
theorem url_regex_run_sound (c e : Cursor) (h : e ∈ url_regex.run c) :
    ∃ t, (c.rest = "http:/".toList ++ t ∨ c.rest = "https:/".toList ++ t) ∧ e.rest <:+ t := by
  unfold url_regex at h
  rw [mem_run_seq] at h
  obtain ⟨m0, hm0, h⟩ := h
  have h0 := mem_run_wordBoundary _ _ hm0
  subst h0
  obtain ⟨m, hm, hrest⟩ := mem_run_group _ _ _ _ h
  rw [hrest]
  simp only [String.toList, Regex.str, mem_run_seq, mem_run_chr, mem_run_opt] at hm
  obtain ⟨m1, ⟨t1, ht1, rfl⟩, m2, ⟨t2, ht2, rfl⟩, m3, ⟨t3, ht3, rfl⟩, m4, ⟨t4, ht4, rfl⟩,
    m5, h5, m6, ⟨t6, ht6, rfl⟩, m7, ⟨t7, ht7, rfl⟩, m8, hm8, m9, hm9, hm10⟩ := hm
  have hs : m.rest <:+ t7 := by
    have h8 : m8.rest <:+ t7 := by
      rcases hm8 with ⟨t8, ht8, rfl⟩ | rfl
      · simp only at ht8
        rw [ht8]
        exact List.suffix_cons _ _
      · exact List.suffix_refl _
    exact ((run_rest_suffix _ _ _ hm10).trans (run_rest_suffix _ _ _ hm9)).trans h8
  simp only at ht2 ht3 ht4 ht6 ht7
  subst ht2 ht3 ht4
  rcases h5 with ⟨t5, ht5, rfl⟩ | rfl
  · simp only at ht5 ht6
    subst ht5 ht6 ht7
    exact ⟨t7, Or.inr (by simp [ht1]), hs⟩
  · simp only at ht6
    subst ht6 ht7
    exact ⟨t7, Or.inl (by simp [ht1]), hs⟩

theorem allMatches_none (r : Regex) (fuel pos : Nat) (prev : Option Char) (rest : List Char)
    (pe : Option Nat) (h : r.search prev rest = none) :
    r.allMatches fuel pos prev rest pe = [] := by
  cases fuel with
  | zero => rfl
  | succ n => simp only [Regex.allMatches, h]

theorem allMatches_step (r : Regex) (fuel pos : Nat) (prev : Option Char) (rest : List Char)
    (pe : Option Nat) (b e : Cursor) (h : r.search prev rest = some (b, e))
    (hne : pos + (rest.length - e.rest.length) ≠ pos) :
    r.allMatches (fuel + 1) pos prev rest pe
      = (pos + (rest.length - b.rest.length), pos + (rest.length - e.rest.length)) ::
          r.allMatches fuel (pos + (rest.length - e.rest.length)) e.prev e.rest
            (some (pos + (rest.length - e.rest.length))) := by
  simp only [Regex.allMatches, h, if_neg hne]

/-- Enough fuel: any fuel above the length of the remaining text gives the
same list of matches. -/
theorem allMatches_fuel (r : Regex) (n m pos : Nat) (prev : Option Char) (rest : List Char)
    (pe : Option Nat) (hn : rest.length < n) (hm : rest.length < m) :
    r.allMatches n pos prev rest pe = r.allMatches m pos prev rest pe := by
  induction n generalizing m pos prev rest pe with
  | zero => omega
  | succ n ih =>
    cases m with
    | zero => omega
    | succ m =>
      cases hs : r.search prev rest with
      | none => rw [allMatches_none _ _ _ _ _ _ hs, allMatches_none _ _ _ _ _ _ hs]
      | some be =>
        obtain ⟨b, e⟩ := be
        obtain ⟨p, hp, -, -, hr⟩ := search_eq_some _ _ _ _ _ hs
        have hsuf : e.rest <:+ b.rest := run_rest_suffix _ _ _ (List.mem_of_mem_head? hr)
        have hle : e.rest.length ≤ rest.length := by
          have h1 := hsuf.length_le
          have h2 : b.rest.length ≤ rest.length := by rw [hp]; simp
          omega
        by_cases hne : pos + (rest.length - e.rest.length) = pos
        · cases rest with
          | nil => simp only [Regex.allMatches, hs, if_pos hne]
          | cons c t =>
            simp only [List.length_cons] at hn hm
            simp only [Regex.allMatches, hs, if_pos hne]
            rw [ih m (pos + 1) (some c) t _ (by omega) (by omega)]
        · rw [allMatches_step _ _ _ _ _ _ _ _ hs hne, allMatches_step _ _ _ _ _ _ _ _ hs hne]
          rw [ih m _ e.prev e.rest _ (by omega) (by omega)]

theorem url_search_shape (prev : Option Char) (rest : List Char) (b e : Cursor)
    (h : url_regex.search prev rest = some (b, e)) :
    ∃ p H q, (H = "http:/".toList ∨ H = "https:/".toList) ∧ rest = p ++ (H ++ (q ++ e.rest)) ∧
      b.rest = H ++ (q ++ e.rest) := by
  obtain ⟨p, hp, -, -, hr⟩ := search_eq_some _ _ _ _ _ h
  obtain ⟨t, ht, ⟨q, hq⟩⟩ := url_regex_run_sound b e (List.mem_of_mem_head? hr)
  rcases ht with ht | ht
  · exact ⟨p, _, q, Or.inl rfl, by rw [hp, ht, hq], by rw [ht, hq]⟩
  · exact ⟨p, _, q, Or.inr rfl, by rw [hp, ht, hq], by rw [ht, hq]⟩

/-- Invariant of the `allMatches` loop for `url_regex`: the ranges lie in the
remaining text, are not empty, follow one another without overlap, and each
covers a text that starts with `http:/` or `https:/`. -/
theorem allMatches_url_inv (fuel pos : Nat) (prev : Option Char) (rest : List Char)
    (pe : Option Nat) :
    (url_regex.allMatches fuel pos prev rest pe).Pairwise (fun x y => x.2 ≤ y.1) ∧
    ∀ m ∈ url_regex.allMatches fuel pos prev rest pe,
      pos ≤ m.1 ∧ m.1 < m.2 ∧ m.2 ≤ pos + rest.length ∧
      ("http:/".toList <+: (rest.drop (m.1 - pos)).take (m.2 - m.1) ∨
        "https:/".toList <+: (rest.drop (m.1 - pos)).take (m.2 - m.1)) := by
  induction fuel generalizing pos prev rest pe with
  | zero => simp [Regex.allMatches]
  | succ n ih =>
    cases hs : url_regex.search prev rest with
    | none => simp [allMatches_none _ _ _ _ _ _ hs]
    | some be =>
      obtain ⟨b, e⟩ := be
      obtain ⟨p, H, q, hH, hrest, hb⟩ := url_search_shape _ _ _ _ hs
      have hHlen : 6 ≤ H.length := by
        rcases hH with rfl | rfl <;> decide
      have hl0 : rest.length - b.rest.length = p.length := by
        rw [hrest, hb]
        simp only [List.length_append]
        omega
      have hl1 : rest.length - e.rest.length = p.length + H.length + q.length := by
        rw [hrest]
        simp only [List.length_append]
        omega
      have hlen : rest.length = p.length + H.length + q.length + e.rest.length := by
        conv_lhs => rw [hrest]
        simp only [List.length_append]
        omega
      have hne : pos + (rest.length - e.rest.length) ≠ pos := by omega
      rw [allMatches_step _ _ _ _ _ _ _ _ hs hne, hl0, hl1]
      obtain ⟨ih1, ih2⟩ := ih (pos + (p.length + H.length + q.length)) e.prev e.rest
        (some (pos + (p.length + H.length + q.length)))
      refine ⟨List.pairwise_cons.mpr ⟨fun m hm => (ih2 m hm).1, ih1⟩, ?_⟩
      intro m hm
      rcases List.mem_cons.mp hm with rfl | hm
      · refine ⟨by simp, by simp; omega, by simp; omega, ?_⟩
        have hd : rest.drop (pos + p.length - pos) = H ++ (q ++ e.rest) := by
          rw [Nat.add_sub_cancel_left, hrest]
          exact List.drop_left _ _
        have ht : (H ++ (q ++ e.rest)).take
            (pos + (p.length + H.length + q.length) - (pos + p.length)) = H ++ q := by
          rw [← List.append_assoc]
          exact List.take_left' (by simp only [List.length_append]; omega)
        simp only
        rw [hd, ht]
        rcases hH with rfl | rfl
        · exact Or.inl (List.prefix_append _ _)
        · exact Or.inr (List.prefix_append _ _)
      · obtain ⟨h1, h2, h3, h4⟩ := ih2 m hm
        refine ⟨by omega, h2, by omega, ?_⟩
        have hd : rest.drop (m.1 - pos)
            = e.rest.drop (m.1 - (pos + (p.length + H.length + q.length))) := by
          have hsplit : rest = (p ++ (H ++ q)) ++ e.rest := by
            rw [hrest]; simp
          have hk : m.1 - pos = (p ++ (H ++ q)).length
              + (m.1 - (pos + (p.length + H.length + q.length))) := by
            simp only [List.length_append]
            omega
          rw [hk]
          conv_lhs => rw [hsplit]
          rw [List.drop_append]
        rw [hd]
        exact h4

/-- C10: the candidate URLs found by `url_regex.FindAllString` are the
slices of the text at a list of non-empty ranges inside the text, each range
ending before the next one starts, and each slice starts with `http:/` or
`https:/`; any fuel above the length of the text gives the same ranges, and
a text without match gives the empty list. -/
theorem url_matches_ordered (s : List Char) :
    (∃ ranges : List (Nat × Nat),
      url_regex.FindAllString s = ranges.map (fun m => slice s m.1 m.2) ∧
      (∀ n, s.length < n → url_regex.allMatches n 0 none s none = ranges) ∧
      (∀ m ∈ ranges, m.1 < m.2 ∧ m.2 ≤ s.length) ∧
      ranges.Pairwise (fun x y => x.2 ≤ y.1) ∧
      (∀ m ∈ ranges, "http:/".toList <+: slice s m.1 m.2 ∨
        "https:/".toList <+: slice s m.1 m.2)) ∧
    (url_regex.MatchString s = false → url_regex.FindAllString s = []) := by
  constructor
  · obtain ⟨h1, h2⟩ := allMatches_url_inv (s.length + 1) 0 none s none
    refine ⟨url_regex.FindAllStringIndex s, rfl, ?_, ?_, h1, ?_⟩
    · intro n hn
      exact allMatches_fuel _ _ _ _ _ _ _ hn (Nat.lt_succ_self _)
    · intro m hm
      obtain ⟨-, ha, hb, -⟩ := h2 m hm
      exact ⟨ha, by simpa using hb⟩
    · intro m hm
      obtain ⟨-, -, -, hp⟩ := h2 m hm
      simpa [slice] using hp
  · intro h
    have hs : url_regex.search none s = none := by
      unfold Regex.MatchString at h
      simpa using h
    simp [Regex.FindAllString, Regex.FindAllStringIndex, allMatches_none _ _ _ _ _ _ hs]

theorem url_matches_ordered_witness :
    url_regex.MatchString "no link here".toList = false ∧
    url_regex.FindAllString "no link here".toList = [] :=
  ⟨by decide, (url_matches_ordered "no link here".toList).2 (by decide)⟩

/-! ### Message texts -/

/-- What `Trim` removes and what it leaves: only runes of the cutset are
removed, at both ends, and the result neither starts nor ends with a rune of
the cutset. -/
theorem Trim_spec (t cutset : List Char) :
    (∃ l r, t = l ++ Trim t cutset ++ r ∧ (∀ c ∈ l, c ∈ cutset) ∧ (∀ c ∈ r, c ∈ cutset)) ∧
    (∀ c, (Trim t cutset).head? = some c → c ∉ cutset) ∧
    (∀ c, (Trim t cutset).getLast? = some c → c ∉ cutset) := by
  have hT : Trim t cutset = (t.dropWhile cutset.contains).rdropWhile cutset.contains := rfl
  refine ⟨⟨t.takeWhile cutset.contains,
    ((t.dropWhile cutset.contains).reverse.takeWhile cutset.contains).reverse, ?_, ?_, ?_⟩, ?_, ?_⟩
  · have h1 := List.takeWhile_append_dropWhile cutset.contains t
    have h2 := List.takeWhile_append_dropWhile cutset.contains
      (t.dropWhile cutset.contains).reverse
    have h3 : t.dropWhile cutset.contains
        = Trim t cutset
          ++ ((t.dropWhile cutset.contains).reverse.takeWhile cutset.contains).reverse := by
      have := congrArg List.reverse h2
      simp only [List.reverse_append, List.reverse_reverse] at this
      rw [hT]
      exact this.symm
    rw [List.append_assoc, ← h3, h1]
  · intro c hc
    have := List.mem_takeWhile_imp hc
    simpa using this
  · intro c hc
    have := List.mem_takeWhile_imp (List.mem_reverse.mp hc)
    simpa using this
  · intro c hc
    have hpre : Trim t cutset <+: t.dropWhile cutset.contains := by
      rw [hT]; exact List.rdropWhile_prefix _ _
    obtain ⟨r, hr⟩ := hpre
    have hhead : (t.dropWhile cutset.contains).head? = some c := by
      rw [← hr, List.head?_append, hc]
      rfl
    have := List.head?_dropWhile_not cutset.contains t
    rw [hhead] at this
    simpa using this
  · intro c hc
    have hne : (t.dropWhile cutset.contains).rdropWhile cutset.contains ≠ [] := by
      intro h
      rw [hT, h] at hc
      simp at hc
    have h1 := List.rdropWhile_last_not cutset.contains _ hne
    rw [hT, List.getLast?_eq_getLast _ hne] at hc
    simp only [Option.some.injEq] at hc
    rw [hc] at h1
    simpa using h1

theorem isTrimmedOf_Trim (field : List Char) :
    isTrimmedOf field (Trim field "\n ".toList) := by
  obtain ⟨⟨l, r, ht, hl, hr⟩, hh, hg⟩ := Trim_spec field "\n ".toList
  refine ⟨⟨l, r, ht, ?_, ?_⟩, ?_, ?_⟩
  · intro c hc
    simpa using hl c hc
  · intro c hc
    simpa using hr c hc
  · intro c hc
    simpa using hh c hc
  · intro c hc
    simpa using hg c hc

theorem imgurScrape_first (w : World) (url text : List Char) (more : List (List Char))
    (h : (imgurScrape w url).result = .finished (text :: more)) :
    isGallerySummary w url "div#content .album-description".toList
      (fun s => s.FindText "h1".toList) text := by
  unfold imgurScrape at h
  split at h
  · simp at h
  · rename_i doc hdoc
    simp only [Result.finished.injEq] at h
    obtain ⟨s, rest, hfind, htext, -⟩ := List.map_eq_cons_iff.mp h
    exact ⟨doc, s, rest, hdoc, hfind, isTrimmedOf_Trim _, htext.symm⟩

theorem vimgurScrape_first (w : World) (url text : List Char) (more : List (List Char))
    (h : (vimgurScrape w url).result = .finished (text :: more)) :
    isGallerySummary w url "head title".toList (fun s => s.Text) text := by
  unfold vimgurScrape at h
  split at h
  · simp at h
  · rename_i doc hdoc
    simp only [Result.finished.injEq] at h
    obtain ⟨s, rest, hfind, htext, -⟩ := List.map_eq_cons_iff.mp h
    exact ⟨doc, s, rest, hdoc, hfind, isTrimmedOf_Trim _, htext.symm⟩

theorem jiraScrape_first (w : World) (url text : List Char) (more : List (List Char))
    (h : (jiraScrape w url).result = .finished (text :: more)) :
    isTicketSummary w url text := by
  unfold jiraScrape at h
  split at h
  · split at h
    · simp at h
    · rename_i key hkey
      dsimp only at h
      split at h
      · simp at h
      · rename_i fields hf
        simp only [Result.finished.injEq, List.cons.injEq] at h
        exact ⟨key, fields, hkey, hf, h.1.symm⟩
  · simp at h

/-- The first value `scrapePage` sends for a URL is the summary of that URL,
by the kind of the URL. -/
theorem scrapePage_first (w : World) (url text : List Char) (more : List (List Char))
    (h : (scrapePage w url).result = .finished (text :: more)) :
    isSummaryOf w url text := by
  have no : ∀ {b : Bool}, b = true → b = false → False := fun h1 h2 =>
    Bool.noConfusion (h1.symm.trans h2)
  unfold scrapePage at h
  by_cases h1 : Contains url "imgur.com/a".toList = true
  · rw [if_pos h1] at h
    exact ⟨fun _ => imgurScrape_first w url text more h, fun hf => (no h1 hf).elim,
      fun hf => (no h1 hf).elim, fun hf => (no h1 hf).elim, Or.inl h1⟩
  · rw [if_neg h1] at h
    by_cases h2 : Contains url "imgur.com/gallery".toList = true
    · rw [if_pos h2] at h
      exact ⟨fun ht => (h1 ht).elim, fun _ _ => vimgurScrape_first w url text more h,
        fun _ hf => (no h2 hf).elim, fun _ hf => (no h2 hf).elim, Or.inr (Or.inl h2)⟩
    · rw [if_neg h2] at h
      by_cases h3 : Contains url ".gifv".toList = true
      · rw [if_pos h3] at h
        exact ⟨fun ht => (h1 ht).elim, fun _ _ => vimgurScrape_first w url text more h,
          fun _ _ hf => (no h3 hf).elim, fun _ _ hf => (no h3 hf).elim,
          Or.inr (Or.inr (Or.inl h3))⟩
      · rw [if_neg h3] at h
        by_cases h4 : imgur_ext_regex.MatchString url = true
        · rw [if_pos h4] at h
          by_cases hl : 3 ≤ url.length
          · rw [if_pos hl] at h
            exact ⟨fun ht => (h1 ht).elim, fun _ hor => hor.elim (fun ht => (h2 ht).elim)
                (fun ht => (h3 ht).elim),
              fun _ _ _ _ => vimgurScrape_first w _ text more h,
              fun _ _ _ hf => (no h4 hf).elim, Or.inr (Or.inr (Or.inr (Or.inl h4)))⟩
          · rw [if_neg hl] at h
            simp at h
        · rw [if_neg h4] at h
          by_cases h5 : Contains url "jira2.advance.net".toList = true
          · rw [if_pos h5] at h
            exact ⟨fun ht => (h1 ht).elim, fun _ hor => hor.elim (fun ht => (h2 ht).elim)
                (fun ht => (h3 ht).elim),
              fun _ _ _ ht => (h4 ht).elim,
              fun _ _ _ _ _ => jiraScrape_first w url text more h,
              Or.inr (Or.inr (Or.inr (Or.inr h5)))⟩
          · rw [if_neg h5] at h
            simp at h

theorem forUrls_getElem (w : World) (channel : List Char) (urls : List (List Char)) (i : Nat)
    (pm : List Char × List Char) (h : (forUrls w channel urls).privmsgs[i]? = some pm) :
    ∃ url more, urls[i]? = some url ∧ pm.1 = channel ∧
      (scrapePage w url).result = .finished (pm.2 :: more) := by
  induction urls generalizing i with
  | nil => simp [forUrls] at h
  | cons url urls ih =>
    cases hr : (scrapePage w url).result with
    | panicked => simp [forUrls, hr] at h
    | finished sends =>
      cases sends with
      | nil => simp [forUrls, hr] at h
      | cons text more =>
        have hp : (forUrls w channel (url :: urls)).privmsgs
            = (channel, text) :: (forUrls w channel urls).privmsgs := by
          simp [forUrls, hr]
        rw [hp] at h
        cases i with
        | zero =>
          simp only [List.getElem?_cons_zero, Option.some.injEq] at h
          subst h
          exact ⟨url, more, by simp, rfl, hr⟩
        | succ j =>
          simp only [List.getElem?_cons_succ] at h
          obtain ⟨u, m, hu, hc, hs⟩ := ih j h
          exact ⟨u, m, by simpa using hu, hc, hs⟩

/-- C4 (counterexample): the texts handed to `con.Privmsg` for a ticket and
for a gallery whose title is `"\n  cats\nand dogs \t\n"` end with a newline;
the gallery text also keeps the newline inside the title, so it is not a
single line, and the tab that follows the title. -/
theorem sink_text_keeps_newline :
    (PrivMsgCallback titleWorld "#go".toList
        "https://jira2.advance.net/browse/ABC-1 http://i.imgur.com/cat.jpg".toList).privmsgs
      = [("#go".toList, "ABC-1 - sum\n".toList),
          ("#go".toList, "Imgur: cats\nand dogs \t\n".toList)] ∧
    "ABC-1 - sum\n".toList ≠ "ABC-1 - sum".toList ∧
    "ABC-1 - sum\n".toList.getLast? = some '\n' ∧
    "Imgur: cats\nand dogs \t\n".toList ≠ "Imgur: cats\nand dogs".toList ∧
    "Imgur: cats\nand dogs \t\n".toList.getLast? = some '\n' ∧
    "Imgur: cats\nand dogs \t\n".toList.count '\n' = 2 := by
  decide

/-- C4 (amended): the `i`-th text the PRIVMSG handler hands to `con.Privmsg`
goes to the channel of the message and is the summary of the `i`-th
candidate URL, by the kind of that URL: for a ticket reference exactly the
key and the summary returned by the lookup of the identifier captured in the
URL, joined by `" - "` and followed by a newline; for a gallery exactly
`"Imgur: "`, the field of the first selected element of the fetched page
(heading of the album description for a static gallery, page title for a
dynamic one) without the newlines and spaces at its two ends, and a
newline. -/
theorem sink_text_format (w : World) (channel message : List Char) (i : Nat)
    (pm : List Char × List Char)
    (h : (PrivMsgCallback w channel message).privmsgs[i]? = some pm) :
    ∃ url, (url_regex.FindAllString message)[i]? = some url ∧ pm.1 = channel ∧
      isSummaryOf w url pm.2 := by
  have hf : (forUrls w channel (url_regex.FindAllString message)).privmsgs[i]? = some pm := by
    by_cases hl : (url_regex.FindAllString message).length > 0
    · have hp : PrivMsgCallback w channel message
          = forUrls w channel (url_regex.FindAllString message) := by
        simp only [PrivMsgCallback, if_pos hl]
      rw [← hp]
      exact h
    · have hp : PrivMsgCallback w channel message = ⟨[], [], .returned⟩ := by
        simp only [PrivMsgCallback, if_neg hl]
      rw [hp] at h
      simp at h
  obtain ⟨url, more, hu, hc, hs⟩ := forUrls_getElem w channel _ i pm hf
  exact ⟨url, hu, hc, scrapePage_first w url pm.2 more hs⟩

theorem sink_text_format_witness :
    isTicketSummary titleWorld "https://jira2.advance.net/browse/ABC-1".toList
      "ABC-1 - sum\n".toList ∧
    isGallerySummary titleWorld "http://i.imgur.com/cat.gifv".toList "head title".toList
      (fun s => s.Text) "Imgur: cats\nand dogs \t\n".toList := by
  constructor
  · obtain ⟨url, hu, -, hs⟩ := sink_text_format titleWorld "#go".toList
      "https://jira2.advance.net/browse/ABC-1 http://i.imgur.com/cat.jpg".toList 0
      ("#go".toList, "ABC-1 - sum\n".toList) (by decide)
    have hurl : url = "https://jira2.advance.net/browse/ABC-1".toList := by
      have h0 : (url_regex.FindAllString
          "https://jira2.advance.net/browse/ABC-1 http://i.imgur.com/cat.jpg".toList)[0]?
          = some "https://jira2.advance.net/browse/ABC-1".toList := by decide
      rw [h0] at hu
      exact (Option.some.inj hu).symm
    subst hurl
    exact hs.2.2.2.1 (by decide) (by decide) (by decide) (by decide) (by decide)
  · obtain ⟨url, hu, -, hs⟩ := sink_text_format titleWorld "#go".toList
      "https://jira2.advance.net/browse/ABC-1 http://i.imgur.com/cat.jpg".toList 1
      ("#go".toList, "Imgur: cats\nand dogs \t\n".toList) (by decide)
    have hurl : url = "http://i.imgur.com/cat.jpg".toList := by
      have h1 : (url_regex.FindAllString
          "https://jira2.advance.net/browse/ABC-1 http://i.imgur.com/cat.jpg".toList)[1]?
          = some "http://i.imgur.com/cat.jpg".toList := by decide
      rw [h1] at hu
      exact (Option.some.inj hu).symm
    subst hurl
    exact hs.2.2.1 (by decide) (by decide) (by decide) (by decide)

/-- C9: the messages the PRIVMSG handler sends are, in order, the first
results of the URLs of a prefix of the candidate URLs, one message per URL of
that prefix, each sent to the channel of the inbound message; a message
without URL sends nothing and starts no `scrapePage`. -/
theorem privmsg_order_preserved (w : World) (channel message : List Char) :
    (∃ k, k ≤ (url_regex.FindAllString message).length ∧
      List.Forall₂
        (fun url pm => pm.1 = channel ∧
          ∃ more, (scrapePage w url).result = .finished (pm.2 :: more))
        ((url_regex.FindAllString message).take k)
        (PrivMsgCallback w channel message).privmsgs) ∧
    (url_regex.FindAllString message = [] →
      (PrivMsgCallback w channel message).privmsgs = [] ∧
      (PrivMsgCallback w channel message).scrapes = []) := by
  constructor
  · exact PrivMsgCallback_prefix w channel message
  · intro h
    simp [PrivMsgCallback, h]

theorem privmsg_order_preserved_witness :
    url_regex.FindAllString "hello there".toList = [] ∧
    (PrivMsgCallback demoWorld "#go".toList "hello there".toList).privmsgs = [] ∧
    (PrivMsgCallback demoWorld "#go".toList "hello there".toList).scrapes = [] :=
  ⟨by decide, (privmsg_order_preserved demoWorld "#go".toList "hello there".toList).2 (by decide)⟩

/-- C1 (failing input): in a message whose first URL is classified Unknown
and whose second URL has an extractor that succeeds, the handler sends
nothing, never starts the second extraction and stays blocked. -/
theorem handler_blocks_after_unknown_url :
    url_regex.FindAllString "see http://example.org/x and https://imgur.com/a/abc".toList
      = ["http://example.org/x".toList, "https://imgur.com/a/abc".toList] ∧
    scrapePage demoWorld "http://example.org/x".toList = ⟨[], [], [], .finished []⟩ ∧
    (scrapePage demoWorld "https://imgur.com/a/abc".toList).result
      = .finished ["Imgur: album\n".toList] ∧
    PrivMsgCallback demoWorld "#go".toList
        "see http://example.org/x and https://imgur.com/a/abc".toList
      = ⟨[], [⟨[], [], [], .finished []⟩], .blocked⟩ := by
  decide

/-- C2 (failing input): when the document fetch returns an error and no
document, both gallery extractors go on to query the absent document and
panic. -/
theorem gallery_scrape_panics_on_fetch_error (url err : List Char) (issue : List Char → Issue) :
    (imgurScrape ⟨fun _ => (none, some err), issue⟩ url).result = .panicked ∧
    (vimgurScrape ⟨fun _ => (none, some err), issue⟩ url).result = .panicked ∧
    (PrivMsgCallback offlineWorld "#go".toList "https://imgur.com/a/abc".toList).outcome
      = .crashed := by
  refine ⟨rfl, rfl, by decide⟩

/-- C3 (failing input): for `https://jira2.advance.net/browse/`, which has no
ticket identifier, `jira_regex` matches with an empty submatch and
`jiraScrape` looks up the ticket `""` in every world, and sends a message
when the lookup returns fields. -/
theorem jiraScrape_looks_up_empty_identifier :
    jira_regex.MatchString "https://jira2.advance.net/browse/".toList = true ∧
    jira_regex.FindStringSubmatch "https://jira2.advance.net/browse/".toList 1 = some [] ∧
    jiraScrape demoWorld "https://jira2.advance.net/browse/".toList
      = ⟨[(.jiraScrape, "https://jira2.advance.net/browse/".toList)], [], [[]],
          .finished [" - sum\n".toList]⟩ ∧
    ∀ w : World, (jiraScrape w "https://jira2.advance.net/browse/".toList).lookups = [[]] := by
  refine ⟨by decide, by decide, by decide, fun w => ?_⟩
  exact jiraScrape_lookups w _ _ (by decide) (by decide)

/-- C5: a URL containing `imgur.com/a` is handled by `imgurScrape` alone,
which receives and fetches the URL unmodified, whatever else the URL
contains. -/
theorem scrapePage_album_first (w : World) (url : List Char)
    (h : Contains url "imgur.com/a".toList = true) :
    scrapePage w url = imgurScrape w url ∧
    (scrapePage w url).calls = [(.imgurScrape, url)] ∧
    (scrapePage w url).fetched = [url] ∧
    (scrapePage w url).lookups = [] := by
  have h1 : scrapePage w url = imgurScrape w url := by
    unfold scrapePage
    rw [if_pos h]
  rw [h1]
  refine ⟨rfl, ?_, ?_, ?_⟩ <;> · unfold imgurScrape; split <;> rfl

theorem scrapePage_album_first_witness :
    Contains "https://imgur.com/a/x.gifv?jira2.advance.net/y.jpg".toList "imgur.com/a".toList
      = true ∧
    Contains "https://imgur.com/a/x.gifv?jira2.advance.net/y.jpg".toList ".gifv".toList = true ∧
    Contains "https://imgur.com/a/x.gifv?jira2.advance.net/y.jpg".toList
      "jira2.advance.net".toList = true ∧
    imgur_ext_regex.MatchString "https://imgur.com/a/x.gifv?jira2.advance.net/y.jpg".toList
      = true ∧
    (scrapePage demoWorld "https://imgur.com/a/x.gifv?jira2.advance.net/y.jpg".toList).calls
      = [(.imgurScrape, "https://imgur.com/a/x.gifv?jira2.advance.net/y.jpg".toList)] :=
  ⟨by decide, by decide, by decide, by decide,
    (scrapePage_album_first demoWorld _ (by decide)).2.1⟩

end Gobot
